import Mathlib

/-!
Verification of the slotted-pig transaction categorization engine.

This file shallowly embeds the core of the `slotted-pig-lib` Rust crate:

* `Transaction` and `TransactionMatcher` with `TransactionMatcher.matches`
  (src/slotted-pig-lib/src/categorizer/transaction_matcher.rs),
* the category hierarchy and `Categorizer.categorize`
  (src/slotted-pig-lib/src/categorizer/mod.rs),
* the result tree and its two sort operations
  (src/slotted-pig-lib/src/categorizer/categorized.rs),
* the pre-hierarchy-fold validation `validate_categories` and
  `vec_to_hashsets` (src/slotted-pig-lib/src/categorizer.rs, util.rs),
* the CSV column resolution and row loop of `TransactionParserCsv::parse_csv`
  (src/slotted-pig-lib/src/transaction.rs).

Modelling conventions: `BigDecimal` amounts become `Rat` (exact, ordered,
decidable); `DateTime<Utc>` becomes `Int` (only its total order is used);
the external `regex` crate engine is abstracted as a predicate
`String → Bool`; Rust's `HashSet` is modelled as a duplicate-free `List`
queried only through `contains`; the external `csv`, `bigdecimal` and
`dateparser` crates are abstracted as the record list and the two parsing
functions passed to `parse_csv`.  Mutation of accumulators and of the
shared claimed-index set is made explicit by state passing.
-/

/-- Abstraction of the external `regex` crate: a compiled regex is used by
the core only through `Regex::is_match`. -/
def Regex : Type := String → Bool

/-- `Regex::is_match` of the external regex engine. -/
def Regex.is_match (r : Regex) (s : String) : Bool := r s

/-- `Transaction` from src/slotted-pig-lib/src/transaction.rs. -/
structure Transaction where
  /-- Amount of the transaction (`BigDecimal`, exact decimal). -/
  amount : Rat
  /-- Account the transaction applied to. -/
  account : String
  /-- Description of the transaction. -/
  description : String
  /-- Time of the transaction (`DateTime<Utc>`, modelled by its order). -/
  time : Int

/-- `TransactionMatcher` from
src/slotted-pig-lib/src/categorizer/transaction_matcher.rs. -/
structure TransactionMatcher where
  /-- Minimum amount of the transaction inclusive. -/
  min : Option Rat
  /-- Maximum amount of the transaction inclusive. -/
  max : Option Rat
  /-- Match against account name of the transaction. -/
  account : Option String
  /-- List of regex to match against the description of the transaction. -/
  description : List Regex
  /-- Time inclusive after which the transaction must have occurred
  (per the source doc comment). -/
  begin : Option Int
  /-- Time inclusive before which the transaction must have occurred
  (per the source doc comment). -/
  «end» : Option Int

/-- `TransactionMatcher::matches`.  Each conjunct is the literal
translation of the corresponding `self.field.as_ref().map(..).unwrap_or(true)`
expression in the source; in particular the `begin` conjunct is
`a >= &transaction.time` and the `end` conjunct is `a <= &transaction.time`,
exactly as in the source. -/
def TransactionMatcher.matches (m : TransactionMatcher) (t : Transaction) : Bool :=
  let minOk := (m.min.map fun a => decide (a ≤ t.amount)).getD true
  let maxOk := (m.max.map fun a => decide (a ≥ t.amount)).getD true
  let accountOk := (m.account.map fun a => a == t.account).getD true
  let descriptionOk := m.description.isEmpty ||
    m.description.any fun r => r.is_match t.description
  let beginOk := (m.begin.map fun a => decide (a ≥ t.time)).getD true
  let endOk := (m.«end».map fun a => decide (a ≤ t.time)).getD true
  minOk && maxOk && accountOk && descriptionOk && beginOk && endOk

/-- `Category` together with its `CategoryChildren` tagged union from
src/slotted-pig-lib/src/categorizer/mod.rs, with the one-field-plus-enum
pair flattened into a single two-constructor inductive. -/
inductive Category : Type where
  /-- A category whose children are `CategoryChildren::TransactionMatchers`. -/
  | leaf (category : String) (matchers : List TransactionMatcher) : Category
  /-- A category whose children are `CategoryChildren::Subcategories`. -/
  | node (category : String) (subcategories : List Category) : Category

/-- `Categorized` together with its `CategorizedChildren` tagged union from
src/slotted-pig-lib/src/categorizer/categorized.rs, flattened the same way
as `Category`. -/
inductive Categorized : Type where
  /-- A result node whose children are `CategorizedChildren::Transactions`. -/
  | leaf (category : String) (count : Nat) (total : Rat) (absolute_total : Rat)
      (transactions : List Transaction) : Categorized
  /-- A result node whose children are `CategorizedChildren::Subcategories`. -/
  | node (category : String) (count : Nat) (total : Rat) (absolute_total : Rat)
      (subcategories : List Categorized) : Categorized

/-- The `category` field of a `Categorized`. -/
def Categorized.category : Categorized → String
  | .leaf n _ _ _ _ => n
  | .node n _ _ _ _ => n

/-- The `count` field of a `Categorized`. -/
def Categorized.count : Categorized → Nat
  | .leaf _ c _ _ _ => c
  | .node _ c _ _ _ => c

/-- The `total` field of a `Categorized`. -/
def Categorized.total : Categorized → Rat
  | .leaf _ _ t _ _ => t
  | .node _ _ t _ _ => t

/-- The `absolute_total` field of a `Categorized`. -/
def Categorized.absolute_total : Categorized → Rat
  | .leaf _ _ _ a _ => a
  | .node _ _ _ a _ => a

/-- State of the `CategoryChildren::TransactionMatchers` arm of
`Category::categorize`: the accumulated `count`, `total`, `absolute_total`,
the claimed transactions collected by the `filter_map`, and the
`categorized` index set after the arm. -/
structure LeafAcc where
  count : Nat
  total : Rat
  absolute_total : Rat
  transactions : List Transaction
  categorized : List Nat

/-- The `CategoryChildren::TransactionMatchers` arm of `Category::categorize`:
iterate over the enumerated transactions; a pair `(i, t)` is claimed iff
`!categorized.contains(&i) && matchers.iter().any(|m| m.matches(t))`, in
which case the counters are bumped and `i` is inserted into `categorized`. -/
def leafCategorize (matchers : List TransactionMatcher) :
    List (Nat × Transaction) → List Nat → LeafAcc
  | [], s => ⟨0, 0, 0, [], s⟩
  | (i, t) :: rest, s =>
    if !s.contains i && matchers.any (fun m => m.matches t) then
      let r := leafCategorize matchers rest (i :: s)
      ⟨r.count + 1, r.total + t.amount, r.absolute_total + |t.amount|,
        t :: r.transactions, r.categorized⟩
    else
      leafCategorize matchers rest s

/-- State of the `CategoryChildren::Subcategories` arm of
`Category::categorize`: the accumulated `count`, `total`, `absolute_total`,
the child results collected by the `map`, and the `categorized` index set
after the arm. -/
structure NodeAcc where
  count : Nat
  total : Rat
  absolute_total : Rat
  subcategorized : List Categorized
  categorized : List Nat

mutual

/-- `Category::categorize` from src/slotted-pig-lib/src/categorizer/mod.rs.
The `&mut HashSet<usize>` of already categorized indices is threaded
explicitly; the function consumes the enumerated filtered transactions. -/
def Category.categorize : Category → List (Nat × Transaction) → List Nat →
    Categorized × List Nat
  | .leaf name matchers, ets, s =>
    let r := leafCategorize matchers ets s
    (.leaf name r.count r.total r.absolute_total r.transactions, r.categorized)
  | .node name subs, ets, s =>
    let r := categorizeList subs ets s
    (.node name r.count r.total r.absolute_total r.subcategorized, r.categorized)

/-- The fold over `subcategories` inside `Category::categorize` (and over
the top-level `categories` inside `Categorizer::categorize`): each child is
categorized in order with the shared claimed-index set, and `count`,
`total`, `absolute_total` accumulate the children's fields. -/
def categorizeList : List Category → List (Nat × Transaction) → List Nat →
    NodeAcc
  | [], _, s => ⟨0, 0, 0, [], s⟩
  | c :: cs, ets, s =>
    let p := Category.categorize c ets s
    let r := categorizeList cs ets p.2
    ⟨p.1.count + r.count, p.1.total + r.total,
      p.1.absolute_total + r.absolute_total, p.1 :: r.subcategorized,
      r.categorized⟩

end

/-- `Categorizer` from src/slotted-pig-lib/src/categorizer/mod.rs. -/
structure Categorizer where
  /-- Filters to apply to transactions before doing any categorization. -/
  transaction_filters : Option (List TransactionMatcher)
  /-- Category hierarchy. -/
  categories : List Category

/-- The pre-filtering step of `Categorizer::categorize`:
`transactions.iter().filter(|t| self.transaction_filters.as_ref()
.map_or(true, |filters| filters.iter().any(|f| f.matches(t))))`. -/
def Categorizer.survivors (cz : Categorizer) (transactions : List Transaction) :
    List Transaction :=
  transactions.filter fun t =>
    (cz.transaction_filters.map fun filters =>
      filters.any fun f => f.matches t).getD true

/-- `Categorizer::categorize`: filter, walk every top-level category with a
shared empty claimed-index set, and return the result forest together with
the transactions whose index was never inserted into the set. -/
def Categorizer.categorize (cz : Categorizer) (transactions : List Transaction) :
    List Categorized × List Transaction :=
  let filtered := cz.survivors transactions
  let r := categorizeList cz.categories filtered.enum []
  let uncategorized :=
    (filtered.enum.filter fun p => !r.categorized.contains p.1).map Prod.snd
  (r.subcategorized, uncategorized)

/-- `CategorySort` from src/slotted-pig-lib/src/categorizer/categorized.rs. -/
inductive CategorySort : Type where
  | totalDescending
  | totalAscending
  | absoluteTotalDescending
  | absoluteTotalAscending
  | nameDescending
  | nameAscending

/-- The comparator each `CategorySort` arm of `Categorized::sort_categorized`
hands to `sort_by`, expressed as the at-most relation of the stable sort:
`sort_by(|c1, c2| c2.total.cmp(&c1.total))` sorts so that `c2.total ≤
c1.total` between ordered elements, and so on. -/
def CategorySort.le (sort : CategorySort) (c1 c2 : Categorized) : Bool :=
  match sort with
  | .totalDescending => decide (c2.total ≤ c1.total)
  | .totalAscending => decide (c1.total ≤ c2.total)
  | .absoluteTotalDescending => decide (c2.absolute_total ≤ c1.absolute_total)
  | .absoluteTotalAscending => decide (c1.absolute_total ≤ c2.absolute_total)
  | .nameDescending => decide (c2.category ≤ c1.category)
  | .nameAscending => decide (c1.category ≤ c2.category)

/-- `TransactionSort` from src/slotted-pig-lib/src/categorizer/categorized.rs. -/
inductive TransactionSort : Type where
  | timeDescending
  | timeAscending
  | amountDescending
  | amountAscending
  | absoluteAmountDescending
  | absoluteAmountAscending

/-- The comparator each `TransactionSort` arm of
`Categorized::sort_transactions` hands to `sort_by` / `sort_by_key`
(`Reverse(t.time)` sorts by time descending). -/
def TransactionSort.le (sort : TransactionSort) (t1 t2 : Transaction) : Bool :=
  match sort with
  | .timeDescending => decide (t2.time ≤ t1.time)
  | .timeAscending => decide (t1.time ≤ t2.time)
  | .amountDescending => decide (t2.amount ≤ t1.amount)
  | .amountAscending => decide (t1.amount ≤ t2.amount)
  | .absoluteAmountDescending => decide (|t2.amount| ≤ |t1.amount|)
  | .absoluteAmountAscending => decide (|t1.amount| ≤ |t2.amount|)

mutual

/-- `Categorized::sort_subcategories`: a no-op on
`CategorizedChildren::Transactions`, otherwise `sort_categorized` on the
children. -/
def Categorized.sort_subcategories (sort : CategorySort) :
    Categorized → Categorized
  | .leaf n c t a txs => .leaf n c t a txs
  | .node n c t a subs => .node n c t a (sort_categorized sort subs)
termination_by c => sizeOf c
decreasing_by
  simp only [Categorized.node.sizeOf_spec]
  omega

/-- `Categorized::sort_categorized`: stable-sort the sibling slice with the
comparator of `sort`, then recurse into every element.  Rust's `sort_by`
is a stable sort, modelled by `List.mergeSort`. -/
def sort_categorized (sort : CategorySort) (l : List Categorized) :
    List Categorized :=
  (l.mergeSort sort.le).attach.map fun x =>
    Categorized.sort_subcategories sort x.1
termination_by sizeOf l
decreasing_by
  exact List.sizeOf_lt_of_mem (List.mem_mergeSort.mp x.2)

end

/-- `Categorized::sort_transactions`: stable-sort the transactions of a
`CategorizedChildren::Transactions` node, otherwise recurse into every
subcategory. -/
def Categorized.sort_transactions (sort : TransactionSort) :
    Categorized → Categorized
  | .leaf n c t a txs => .leaf n c t a (txs.mergeSort sort.le)
  | .node n c t a subs =>
      .node n c t a (subs.attach.map fun x => x.1.sort_transactions sort)
termination_by c => sizeOf c
decreasing_by
  have h1 := List.sizeOf_lt_of_mem x.2
  simp only [Categorized.node.sizeOf_spec]
  omega

/-- `CategorizedList::sort_subcategories` on the top-level forest. -/
def sortSubcategoriesForest (l : List Categorized) (sort : CategorySort) :
    List Categorized :=
  sort_categorized sort l

/-- `CategorizedList::sort_transactions` on the top-level forest. -/
def sortTransactionsForest (l : List Categorized) (sort : TransactionSort) :
    List Categorized :=
  l.map (Categorized.sort_transactions sort)

/-- `util::vec_to_hashsets` insertion into a `HashSet`, modelled on
duplicate-free lists: inserting a present element leaves the set unchanged. -/
def setInsert (s : List String) (a : String) : List String :=
  if s.contains a then s else s ++ [a]

/-- The loop of `util::vec_to_hashsets` from src/slotted-pig-lib/src/util.rs:
each item goes to the duplicate set if the unique set already contains it,
otherwise to the unique set. -/
def vec_to_hashsets_go : List String → List String → List String →
    List String × List String
  | [], u, d => (u, d)
  | a :: rest, u, d =>
    if u.contains a then vec_to_hashsets_go rest u (setInsert d a)
    else vec_to_hashsets_go rest (setInsert u a) d

/-- `util::vec_to_hashsets`: convert a vector to two hashsets, one of
unique elements and one of duplicates. -/
def vec_to_hashsets (l : List String) : List String × List String :=
  vec_to_hashsets_go l [] []

namespace old

/-- `TransactionMatcher` of the pre-hierarchy-fold design from
src/slotted-pig-lib/src/categorizer.rs: same constraint fields, plus the
`category` name this matcher assigns transactions to. -/
structure TransactionMatcher where
  /-- Category name for this matcher. -/
  category : String
  min : Option Rat
  max : Option Rat
  account : Option String
  description : List Regex
  begin : Option Int
  «end» : Option Int

/-- `Category` of the pre-hierarchy-fold design: a name plus subcategories
(leaves are nodes with an empty `subcategories` list). -/
inductive Category : Type where
  | mk (category : String) (subcategories : List Category) : Category

/-- `Category::categories` from src/slotted-pig-lib/src/categorizer.rs:
own name first, then the names of every subcategory, depth-first. -/
def Category.categories : Category → List String
  | .mk n subs => n :: (subs.attach.flatMap fun x => x.1.categories)
termination_by c => sizeOf c
decreasing_by
  have h1 := List.sizeOf_lt_of_mem x.2
  simp only [Category.mk.sizeOf_spec]
  omega

/-- `Categorizer` of the pre-hierarchy-fold design: a flat matcher list and
a separate category hierarchy. -/
structure Categorizer where
  matchers : List TransactionMatcher
  hierarchy : List Category

/-- The validation errors of src/slotted-pig-lib/src/categorizer.rs, each
carrying a `HashSet<String>` payload. -/
inductive Error : Type where
  | duplicateCategoriesInTransactionMatchers (s : List String) : Error
  | duplicateCategoriesInCategoryHierarchy (s : List String) : Error
  | missingCategoriesInCategoryHierarchy (s : List String) : Error

/-- `Categorizer::validate_categories`: reject duplicate matcher category
names, then duplicate hierarchy names, then matcher names missing from the
hierarchy (`matchers_unique.difference(&hierarchy_unique)`). -/
def Categorizer.validate_categories (cz : Categorizer) : Except Error Unit :=
  let m := vec_to_hashsets (cz.matchers.map fun t => t.category)
  if !m.2.isEmpty then
    .error (.duplicateCategoriesInTransactionMatchers m.2)
  else
    let h := vec_to_hashsets (cz.hierarchy.flatMap Category.categories)
    if !h.2.isEmpty then
      .error (.duplicateCategoriesInCategoryHierarchy h.2)
    else
      let missing := m.1.filter fun c => !h.1.contains c
      if !missing.isEmpty then
        .error (.missingCategoriesInCategoryHierarchy missing)
      else
        .ok ()

/-- The tail of `Categorizer::from_reader` after the (external) YAML
deserialization step has produced a `Categorizer` value:
`categorizer.validate_categories()?; Ok(categorizer)`. -/
def Categorizer.from_parsed (cz : Categorizer) : Except Error Categorizer := do
  cz.validate_categories
  pure cz

end old

/-- The value-bearing errors of src/slotted-pig-lib/src/transaction.rs that
`TransactionParserCsv::parse_csv` can produce.  `bigDecimal` and
`dateparser` wrap errors of external crates whose payload is not modelled. -/
inductive ParseError : Type where
  | missingAmount (s : String) : ParseError
  | missingAccount (s : String) : ParseError
  | missingDescription (s : String) : ParseError
  | missingTime (s : String) : ParseError
  | bigDecimal : ParseError
  | dateparser : ParseError

/-- `ColumnDeterminer` from src/slotted-pig-lib/src/transaction.rs. -/
inductive ColumnDeterminer : Type where
  | constant (s : String) : ColumnDeterminer
  | header (s : String) : ColumnDeterminer
  | index (i : Nat) : ColumnDeterminer

/-- `ConstantOrIndex` from src/slotted-pig-lib/src/transaction.rs. -/
inductive ConstantOrIndex : Type where
  | constant (s : String) : ConstantOrIndex
  | index (i : Nat) : ConstantOrIndex

/-- `StringRecord::as_slice` of the external csv crate: the fields of the
record joined with no separators. -/
def asSlice (record : List String) : String :=
  String.join record

/-- `ColumnDeterminer::constant_or_index`: a header spec resolves to the
position of the first matching header and fails with the header row's
content when absent; constants and indexes always resolve. -/
def ColumnDeterminer.constant_or_index (c : ColumnDeterminer)
    (headers : List String) : Except String ConstantOrIndex :=
  match c with
  | .constant s => .ok (.constant s)
  | .header h =>
    match headers.findIdx? (fun x => x == h) with
    | some i => .ok (.index i)
    | none => .error (asSlice headers)
  | .index i => .ok (.index i)

/-- `ConstantOrIndex::value`: fetch the field at the index (failing with
the row's content when the row is too short), or return the constant. -/
def ConstantOrIndex.value (ci : ConstantOrIndex) (row : List String) :
    Except String String :=
  match ci with
  | .constant s => .ok s
  | .index i =>
    match row[i]? with
    | some v => .ok v
    | none => .error (asSlice row)

/-- `TransactionParserCsv` from src/slotted-pig-lib/src/transaction.rs.
The filename regex is not needed by `parse_csv` itself and is omitted;
`parseAmount` and `parseTime` abstract the external `BigDecimal::from_str`
and `dateparser::parse` functions. -/
structure TransactionParserCsv where
  has_header : Bool
  amount_column : ColumnDeterminer
  account_column : ColumnDeterminer
  description_column : ColumnDeterminer
  time_column : ColumnDeterminer

/-- The row loop of `TransactionParserCsv::parse_csv`: resolve each column
of each row, then parse the amount and the time, failing fast. -/
def parseRows (amountCi accountCi descriptionCi timeCi : ConstantOrIndex)
    (parseAmount : String → Except Unit Rat)
    (parseTime : String → Except Unit Int) :
    List (List String) → Except ParseError (List Transaction)
  | [] => .ok []
  | row :: rest => do
    let amountStr ← (amountCi.value row).mapError ParseError.missingAmount
    let accountStr ← (accountCi.value row).mapError ParseError.missingAccount
    let descriptionStr ←
      (descriptionCi.value row).mapError ParseError.missingDescription
    let timeStr ← (timeCi.value row).mapError ParseError.missingTime
    let amount ← (parseAmount amountStr).mapError fun _ => ParseError.bigDecimal
    let time ← (parseTime timeStr).mapError fun _ => ParseError.dateparser
    let t : Transaction :=
      ⟨amount, accountStr, descriptionStr, time⟩
    let rest' ← parseRows amountCi accountCi descriptionCi timeCi
      parseAmount parseTime rest
    .ok (t :: rest')

/-- `TransactionParserCsv::parse_csv`.  The external csv reader is
abstracted as the list of records of the file: `headers()` is the first
record (empty for an empty file), and `records()` yields the remaining
records when `has_header` is set and every record otherwise.  An empty
header record returns an empty transaction list; otherwise the four column
specs are resolved against the header row, failing with
`MissingAmount`/`MissingAccount`/`MissingDescription`/`MissingTime`
carrying the header row's content, and then every row is converted. -/
def TransactionParserCsv.parse_csv (cfg : TransactionParserCsv)
    (parseAmount : String → Except Unit Rat)
    (parseTime : String → Except Unit Int)
    (records : List (List String)) : Except ParseError (List Transaction) :=
  let headers := records.head?.getD []
  if headers.isEmpty then .ok []
  else do
    let amountCi ←
      (cfg.amount_column.constant_or_index headers).mapError
        ParseError.missingAmount
    let accountCi ←
      (cfg.account_column.constant_or_index headers).mapError
        ParseError.missingAccount
    let descriptionCi ←
      (cfg.description_column.constant_or_index headers).mapError
        ParseError.missingDescription
    let timeCi ←
      (cfg.time_column.constant_or_index headers).mapError
        ParseError.missingTime
    let rows := if cfg.has_header then records.tail else records
    parseRows amountCi accountCi descriptionCi timeCi parseAmount parseTime rows

/-- The aggregation invariant of the Categorized Result tree: at every node
whose children are subcategories, `count`, `total` and `absolute_total`
equal the sums of the children's corresponding fields, recursively. -/
def Categorized.sumInv : Categorized → Bool
  | .leaf _ _ _ _ _ => true
  | .node _ cnt tot abst subs =>
    (cnt == (subs.map Categorized.count).sum) &&
    (tot == (subs.map Categorized.total).sum) &&
    (abst == (subs.map Categorized.absolute_total).sum) &&
    (subs.attach.all fun x => x.1.sumInv)
termination_by c => sizeOf c
decreasing_by
  have h1 := List.sizeOf_lt_of_mem x.2
  simp only [Categorized.node.sizeOf_spec]
  omega

/-- The all-zero result tree mirroring a category hierarchy: every node
carries count 0, total 0, absolute_total 0, and leaves hold no
transactions. -/
def Category.zeroTree : Category → Categorized
  | .leaf n _ => .leaf n 0 0 0 []
  | .node n subs => .node n 0 0 0 (subs.attach.map fun x => x.1.zeroTree)
termination_by c => sizeOf c
decreasing_by
  have h1 := List.sizeOf_lt_of_mem x.2
  simp only [Category.node.sizeOf_spec]
  omega

/-- The transaction lists held at the leaves of a result tree, in
depth-first order. -/
def Categorized.leafLists : Categorized → List (List Transaction)
  | .leaf _ _ _ _ txs => [txs]
  | .node _ _ _ _ subs => subs.attach.flatMap fun x => x.1.leafLists
termination_by c => sizeOf c
decreasing_by
  have h1 := List.sizeOf_lt_of_mem x.2
  simp only [Categorized.node.sizeOf_spec]
  omega

/-- The matcher lists of the leaf categories of a hierarchy, in depth-first
order. -/
def Category.leafMatchers : Category → List (List TransactionMatcher)
  | .leaf _ ms => [ms]
  | .node _ subs => subs.attach.flatMap fun x => x.1.leafMatchers
termination_by c => sizeOf c
decreasing_by
  have h1 := List.sizeOf_lt_of_mem x.2
  simp only [Category.node.sizeOf_spec]
  omega

/-- Leaf transaction lists of a result forest, depth-first, top-level trees
in listed order. -/
def leafListsForest (rs : List Categorized) : List (List Transaction) :=
  rs.flatMap Categorized.leafLists

/-- Leaf matcher lists of a category forest, depth-first, top-level
categories in listed order. -/
def leafMatchersList (cs : List Category) : List (List TransactionMatcher) :=
  cs.flatMap Category.leafMatchers

/-- A leaf category claims a transaction when at least one of its matchers
matches it. -/
def matchesLeaf (ms : List TransactionMatcher) (t : Transaction) : Bool :=
  ms.any fun m => m.matches t

/-- Whether any leaf of the given depth-first leaf list matches `t`. -/
def anyLeafMatches (leaves : List (List TransactionMatcher)) (t : Transaction) :
    Bool :=
  leaves.any fun ms => matchesLeaf ms t

/-- The position of the first leaf, in depth-first order, having at least
one matcher that matches `t` — the leaf the spec says must claim `t`. -/
def firstMatchingLeaf : List (List TransactionMatcher) → Transaction →
    Option Nat
  | [], _ => none
  | ms :: rest, t =>
    if matchesLeaf ms t then some 0
    else (firstMatchingLeaf rest t).map (· + 1)

/-- The assignment of enumerated transactions to depth-first leaf positions
demanded by the spec, relative to a set `s` of already-claimed indices:
position `k` receives exactly the still-unclaimed transactions whose first
matching leaf is `k`, in input order. -/
def specAssign (leaves : List (List TransactionMatcher))
    (ets : List (Nat × Transaction)) (s : List Nat) :
    List (List Transaction) :=
  (List.range leaves.length).map fun k =>
    (ets.filter fun p =>
      !s.contains p.1 && (firstMatchingLeaf leaves p.2 == some k)).map Prod.snd

/-- Pure-reordering equivalence of result trees: equal category name,
`count`, `total` and `absolute_total` at every node; sibling subcategories
permuted (each matched, in order, with an equivalent tree); leaf
transaction lists permuted. -/
inductive SortEquiv : Categorized → Categorized → Prop where
  | leaf (n : String) (cnt : Nat) (tot abst : Rat) (txs txs' : List Transaction) :
      txs.Perm txs' →
      SortEquiv (.leaf n cnt tot abst txs) (.leaf n cnt tot abst txs')
  | node (n : String) (cnt : Nat) (tot abst : Rat)
      (subs subs₀ subs' : List Categorized) :
      List.Forall₂ SortEquiv subs subs₀ → subs₀.Perm subs' →
      SortEquiv (.node n cnt tot abst subs) (.node n cnt tot abst subs')

/-- Pure-reordering equivalence of result forests: top-level trees each
replaced by an equivalent tree, then permuted. -/
def SortEquivForest (l l' : List Categorized) : Prop :=
  ∃ l₀, List.Forall₂ SortEquiv l l₀ ∧ l₀.Perm l'

/-- Characterization of `Category::categorize` on one category, relative to
an enumerated transaction list with distinct indices and a set `s` of
already-claimed indices: the leaf transaction lists are the spec's
first-matching-leaf assignment, and the returned claimed set adds exactly
the indices of transactions matched by some leaf of this subtree. -/
def CatCharP (c : Category) : Prop :=
  ∀ (ets : List (Nat × Transaction)) (s : List Nat),
    (ets.map Prod.fst).Nodup →
    ((Category.categorize c ets s).1.leafLists =
        specAssign c.leafMatchers ets s) ∧
    (∀ j, (Category.categorize c ets s).2.contains j =
        (s.contains j ||
          ets.any fun p => p.1 == j && anyLeafMatches c.leafMatchers p.2))

/-- The same characterization for a category forest processed by
`categorizeList` with a shared claimed set. -/
def CatCharQ (cs : List Category) : Prop :=
  ∀ (ets : List (Nat × Transaction)) (s : List Nat),
    (ets.map Prod.fst).Nodup →
    (leafListsForest (categorizeList cs ets s).subcategorized =
        specAssign (leafMatchersList cs) ets s) ∧
    (∀ j, (categorizeList cs ets s).categorized.contains j =
        (s.contains j ||
          ets.any fun p => p.1 == j && anyLeafMatches (leafMatchersList cs) p.2))

theorem Category.categoryInduction {P : Category → Prop}
    (hleaf : ∀ n ms, P (.leaf n ms))
    (hnode : ∀ n subs, (∀ c ∈ subs, P c) → P (.node n subs)) :
    ∀ c, P c
  | .leaf n ms => hleaf n ms
  | .node n subs => hnode n subs fun c hc =>
      Category.categoryInduction hleaf hnode c
termination_by c => sizeOf c
decreasing_by
  have h1 := List.sizeOf_lt_of_mem hc
  simp only [Category.node.sizeOf_spec]
  omega

theorem Categorized.categorizedInduction {P : Categorized → Prop}
    (hleaf : ∀ n cnt tot abst txs, P (.leaf n cnt tot abst txs))
    (hnode : ∀ n cnt tot abst subs, (∀ c ∈ subs, P c) →
      P (.node n cnt tot abst subs)) :
    ∀ c, P c
  | .leaf n cnt tot abst txs => hleaf n cnt tot abst txs
  | .node n cnt tot abst subs => hnode n cnt tot abst subs fun c hc =>
      Categorized.categorizedInduction hleaf hnode c
termination_by c => sizeOf c
decreasing_by
  have h1 := List.sizeOf_lt_of_mem hc
  simp only [Categorized.node.sizeOf_spec]
  omega

theorem attach_flatMap {α β : Type} (l : List α) (g : α → List β) :
    (l.attach.flatMap fun x => g x.1) = l.flatMap g := by
  rw [List.flatMap_def, List.flatMap_def, List.attach_map_val]

theorem attach_all {α : Type} (l : List α) (f : α → Bool) :
    (l.attach.all fun x => f x.1) = l.all f := by
  rw [Bool.eq_iff_iff, List.all_eq_true, List.all_eq_true]
  constructor
  · intro h a ha
    exact h ⟨a, ha⟩ (List.mem_attach _ _)
  · intro h x _
    exact h x.1 x.2

/-- C3: `TransactionMatcher::matches` is the conjunction of its present
constraints.  An absent constraint is vacuously true; an empty description
pattern list is always true and a non-empty one requires some pattern to
match; amount bounds are exact inclusive `Rat` comparisons; account is
exact string equality; the two time conjuncts are exactly the comparisons
the source performs on `begin` and `end` (their directions are examined
separately against the field documentation). -/
theorem matches_iff_constraints (m : TransactionMatcher) (t : Transaction) :
    m.matches t = true ↔
      (∀ a ∈ m.min, a ≤ t.amount) ∧
      (∀ a ∈ m.max, t.amount ≤ a) ∧
      (∀ a ∈ m.account, a = t.account) ∧
      (m.description = [] ∨
        ∃ r ∈ m.description, r.is_match t.description = true) ∧
      (∀ a ∈ m.begin, t.time ≤ a) ∧
      (∀ a ∈ m.«end», a ≤ t.time) := by
  obtain ⟨mn, mx, ac, ds, bg, en⟩ := m
  cases mn <;> cases mx <;> cases ac <;> cases bg <;> cases en <;>
    simp [TransactionMatcher.matches, List.isEmpty_iff, List.any_eq_true,
      ge_iff_le, and_assoc, Option.mem_def]

/-- C4 (code bug): the source's `begin` conjunct is `a >= &transaction.time`,
so a matcher whose only present constraint is `begin = 5` rejects a
transaction at time 10 even though 5 ≤ 10 — the opposite of the field's
documented "time inclusive after which the transaction must have occurred"
and of the claim.  Dually `end` acts as a lower bound. -/
theorem matches_begin_reversed :
    ((5 : Int) ≤ 10 ∧
      TransactionMatcher.matches
        ⟨none, none, none, [], some 5, none⟩ ⟨0, "", "", 10⟩ = false) ∧
    ((0 : Int) ≤ 5 ∧
      TransactionMatcher.matches
        ⟨none, none, none, [], none, some 5⟩ ⟨0, "", "", 0⟩ = false) ∧
    TransactionMatcher.matches
      ⟨none, none, none, [], some 5, none⟩ ⟨0, "", "", 0⟩ = true := by
  refine ⟨⟨by decide, ?_⟩, ⟨by decide, ?_⟩, ?_⟩ <;> rfl

/-- C10: when the header record of the input is empty (for example a
zero-byte file), `TransactionParserCsv::parse_csv` returns an empty
transaction list without attempting to resolve any column spec. -/
theorem parse_csv_empty_headers (cfg : TransactionParserCsv)
    (parseAmount : String → Except Unit Rat)
    (parseTime : String → Except Unit Int)
    (records : List (List String))
    (h : (records.head?.getD []).isEmpty = true) :
    cfg.parse_csv parseAmount parseTime records = .ok [] := by
  unfold TransactionParserCsv.parse_csv
  simp only [h, if_true]

theorem parse_csv_empty_headers_witness :
    (((([] : List (List String)).head?.getD []).isEmpty = true) ∧
      TransactionParserCsv.parse_csv
        ⟨true, .header "Amt", .header "account", .header "description",
          .index 7⟩
        (fun _ => .error ()) (fun _ => .error ()) [] = .ok []) :=
  ⟨rfl, parse_csv_empty_headers _ _ _ [] rfl⟩

theorem constant_or_index_header_missing (hname : String)
    (headers : List String) (h : hname ∉ headers) :
    (ColumnDeterminer.header hname).constant_or_index headers =
      .error (asSlice headers) := by
  simp only [ColumnDeterminer.constant_or_index]
  have hnone : headers.findIdx? (fun x => x == hname) = none := by
    rw [List.findIdx?_eq_none_iff]
    intro x hx
    simp only [beq_eq_false_iff_ne, ne_eq]
    rintro rfl
    exact h hx
  rw [hnone]

/-- C8: resolving a header column spec against a non-empty header row that
lacks the named header fails the whole parse with the corresponding
`MissingAmount`/`MissingAccount`/`MissingDescription`/`MissingTime` error
carrying the header row's content, each later column being reached only
when all earlier ones resolved. -/
theorem parse_csv_missing_column_errors (cfg : TransactionParserCsv)
    (parseAmount : String → Except Unit Rat)
    (parseTime : String → Except Unit Int)
    (records : List (List String))
    (hne : (records.head?.getD []).isEmpty = false) :
    (∀ hname, cfg.amount_column = .header hname →
      hname ∉ records.head?.getD [] →
      cfg.parse_csv parseAmount parseTime records =
        .error (.missingAmount (asSlice (records.head?.getD [])))) ∧
    (∀ ciA hname,
      cfg.amount_column.constant_or_index (records.head?.getD []) = .ok ciA →
      cfg.account_column = .header hname →
      hname ∉ records.head?.getD [] →
      cfg.parse_csv parseAmount parseTime records =
        .error (.missingAccount (asSlice (records.head?.getD [])))) ∧
    (∀ ciA ciB hname,
      cfg.amount_column.constant_or_index (records.head?.getD []) = .ok ciA →
      cfg.account_column.constant_or_index (records.head?.getD []) = .ok ciB →
      cfg.description_column = .header hname →
      hname ∉ records.head?.getD [] →
      cfg.parse_csv parseAmount parseTime records =
        .error (.missingDescription (asSlice (records.head?.getD [])))) ∧
    (∀ ciA ciB ciC hname,
      cfg.amount_column.constant_or_index (records.head?.getD []) = .ok ciA →
      cfg.account_column.constant_or_index (records.head?.getD []) = .ok ciB →
      cfg.description_column.constant_or_index (records.head?.getD [])
        = .ok ciC →
      cfg.time_column = .header hname →
      hname ∉ records.head?.getD [] →
      cfg.parse_csv parseAmount parseTime records =
        .error (.missingTime (asSlice (records.head?.getD [])))) := by
  refine ⟨?_, ?_, ?_, ?_⟩
  · intro hname hcol habs
    unfold TransactionParserCsv.parse_csv
    rw [hcol]
    simp only [hne, Bool.false_eq_true, if_false,
      constant_or_index_header_missing hname _ habs]
    rfl
  · intro ciA hname hok hcol habs
    unfold TransactionParserCsv.parse_csv
    rw [hcol]
    simp only [hne, Bool.false_eq_true, if_false, hok,
      constant_or_index_header_missing hname _ habs]
    rfl
  · intro ciA ciB hname hokA hokB hcol habs
    unfold TransactionParserCsv.parse_csv
    rw [hcol]
    simp only [hne, Bool.false_eq_true, if_false, hokA, hokB,
      constant_or_index_header_missing hname _ habs]
    rfl
  · intro ciA ciB ciC hname hokA hokB hokC hcol habs
    unfold TransactionParserCsv.parse_csv
    rw [hcol]
    simp only [hne, Bool.false_eq_true, if_false, hokA, hokB, hokC,
      constant_or_index_header_missing hname _ habs]
    rfl

theorem parse_csv_missing_column_errors_witness :
    ((([["date", "amount"]] : List (List String)).head?.getD []).isEmpty
        = false) ∧
    TransactionParserCsv.parse_csv
      ⟨true, .header "Amt", .constant "a", .constant "d", .constant "t"⟩
      (fun _ => .error ()) (fun _ => .error ()) [["date", "amount"]] =
      .error (.missingAmount "dateamount") ∧
    TransactionParserCsv.parse_csv
      ⟨true, .constant "1", .header "Acct", .constant "d", .constant "t"⟩
      (fun _ => .error ()) (fun _ => .error ()) [["date", "amount"]] =
      .error (.missingAccount "dateamount") ∧
    TransactionParserCsv.parse_csv
      ⟨true, .constant "1", .constant "a", .header "Desc", .constant "t"⟩
      (fun _ => .error ()) (fun _ => .error ()) [["date", "amount"]] =
      .error (.missingDescription "dateamount") ∧
    TransactionParserCsv.parse_csv
      ⟨true, .constant "1", .constant "a", .constant "d", .header "Time"⟩
      (fun _ => .error ()) (fun _ => .error ()) [["date", "amount"]] =
      .error (.missingTime "dateamount") := by
  refine ⟨rfl, ?_, ?_, ?_, ?_⟩
  · exact (parse_csv_missing_column_errors _ _ _ [["date", "amount"]] rfl).1
      "Amt" rfl (by decide)
  · exact (parse_csv_missing_column_errors _ _ _ [["date", "amount"]]
      rfl).2.1 (.constant "1") "Acct" rfl rfl (by decide)
  · exact (parse_csv_missing_column_errors _ _ _ [["date", "amount"]]
      rfl).2.2.1 (.constant "1") (.constant "a") "Desc" rfl rfl rfl (by decide)
  · exact (parse_csv_missing_column_errors _ _ _ [["date", "amount"]]
      rfl).2.2.2 (.constant "1") (.constant "a") (.constant "d") "Time"
      rfl rfl rfl rfl (by decide)

theorem categorizeList_fields (ets : List (Nat × Transaction)) :
    ∀ (cs : List Category) (s : List Nat),
      ((categorizeList cs ets s).count =
        ((categorizeList cs ets s).subcategorized.map Categorized.count).sum) ∧
      ((categorizeList cs ets s).total =
        ((categorizeList cs ets s).subcategorized.map Categorized.total).sum) ∧
      ((categorizeList cs ets s).absolute_total =
        ((categorizeList cs ets s).subcategorized.map
          Categorized.absolute_total).sum) := by
  intro cs
  induction cs with
  | nil =>
    intro s
    simp [categorizeList]
  | cons c cs ih =>
    intro s
    obtain ⟨h1, h2, h3⟩ := ih (Category.categorize c ets s).2
    simp only [categorizeList, List.map_cons, List.sum_cons]
    exact ⟨by rw [h1], by rw [h2], by rw [h3]⟩

theorem categorizeList_sumInv_children :
    ∀ (cs : List Category),
      (∀ c ∈ cs, ∀ ets s, ((Category.categorize c ets s).1).sumInv = true) →
      ∀ ets s, ∀ x ∈ (categorizeList cs ets s).subcategorized,
        x.sumInv = true := by
  intro cs
  induction cs with
  | nil =>
    intro _ ets s x hx
    simp [categorizeList] at hx
  | cons c cs ih =>
    intro H ets s x hx
    simp only [categorizeList] at hx
    rcases List.mem_cons.mp hx with h | h
    · subst h
      exact H c (List.mem_cons_self c cs) ets s
    · exact ih (fun c' hc' => H c' (List.mem_cons_of_mem c hc')) ets _ x h

theorem categorize_sumInv :
    ∀ (c : Category) (ets : List (Nat × Transaction)) (s : List Nat),
      ((Category.categorize c ets s).1).sumInv = true := by
  intro c
  induction c using Category.categoryInduction with
  | hleaf n ms =>
    intro ets s
    simp [Category.categorize, Categorized.sumInv]
  | hnode n subs ih =>
    intro ets s
    obtain ⟨h1, h2, h3⟩ := categorizeList_fields ets subs s
    simp only [Category.categorize, Categorized.sumInv, Bool.and_eq_true,
      beq_iff_eq, attach_all, List.all_eq_true]
    exact ⟨⟨⟨h1, h2⟩, h3⟩,
      fun x hx => categorizeList_sumInv_children subs ih ets s x hx⟩

/-- C1: every tree of the result forest produced by
`Categorizer::categorize` satisfies the aggregation invariant: at every
node whose children are subcategories, `count`, `total` and
`absolute_total` equal the sums of the children's corresponding fields,
recursively down to the leaves. -/
theorem categorize_sum_invariant (cz : Categorizer) (ts : List Transaction) :
    ((cz.categorize ts).1.all Categorized.sumInv) = true := by
  unfold Categorizer.categorize
  rw [List.all_eq_true]
  intro x hx
  exact categorizeList_sumInv_children cz.categories
    (fun c _ => categorize_sumInv c) _ _ x hx

theorem zeroTree_count (c : Category) : c.zeroTree.count = 0 := by
  cases c <;> simp [Category.zeroTree, Categorized.count]

theorem zeroTree_total (c : Category) : c.zeroTree.total = 0 := by
  cases c <;> simp [Category.zeroTree, Categorized.total]

theorem zeroTree_absolute_total (c : Category) :
    c.zeroTree.absolute_total = 0 := by
  cases c <;> simp [Category.zeroTree, Categorized.absolute_total]

theorem leafCategorize_nil_matchers :
    ∀ (ets : List (Nat × Transaction)) (s : List Nat),
      leafCategorize [] ets s = ⟨0, 0, 0, [], s⟩ := by
  intro ets
  induction ets with
  | nil => intro s; rfl
  | cons p rest ih =>
    intro s
    obtain ⟨i, t⟩ := p
    simp [leafCategorize, ih]

theorem categorize_empty_transactions :
    ∀ (c : Category) (s : List Nat),
      Category.categorize c [] s = (c.zeroTree, s) := by
  intro c
  induction c using Category.categoryInduction with
  | hleaf n ms =>
    intro s
    simp [Category.categorize, Category.zeroTree, leafCategorize]
  | hnode n subs ih =>
    intro s
    have hlist : ∀ (cs : List Category), (∀ c ∈ cs, ∀ s', Category.categorize c [] s' = (c.zeroTree, s')) →
        ∀ s', categorizeList cs [] s' = ⟨0, 0, 0, cs.map Category.zeroTree, s'⟩ := by
      intro cs
      induction cs with
      | nil => intro _ s'; rfl
      | cons c' cs' ih' =>
        intro H s'
        have hc' := H c' (List.mem_cons_self c' cs') s'
        have hrest := ih' (fun x hx => H x (List.mem_cons_of_mem c' hx))
        simp only [categorizeList, hc']
        simp [hrest, zeroTree_count, zeroTree_total, zeroTree_absolute_total]
    simp only [Category.categorize, hlist subs ih s, Category.zeroTree]
    rw [List.attach_map_val]


theorem categorizeList_empty_transactions :
    ∀ (cs : List Category) (s : List Nat),
      categorizeList cs [] s = ⟨0, 0, 0, cs.map Category.zeroTree, s⟩ := by
  intro cs
  induction cs with
  | nil => intro s; rfl
  | cons c' cs' ih =>
    intro s
    have hc' := categorize_empty_transactions c' s
    simp only [categorizeList, hc']
    simp [ih, zeroTree_count, zeroTree_total, zeroTree_absolute_total]

/-- C9: (a) with an empty category forest, `categorize` returns an empty
result forest and every surviving transaction as uncategorized; (b) with an
empty transaction list, it returns the all-zero tree mirroring the full
hierarchy and an empty uncategorized list; (c) a leaf category with an
empty matcher list claims nothing: it produces an all-zero, empty leaf and
leaves the claimed-index set untouched. -/
theorem categorize_edge_cases :
    (∀ (cz : Categorizer) (ts : List Transaction), cz.categories = [] →
      (cz.categorize ts).1 = [] ∧ (cz.categorize ts).2 = cz.survivors ts) ∧
    (∀ cz : Categorizer,
      (cz.categorize []).1 = cz.categories.map Category.zeroTree ∧
      (cz.categorize []).2 = []) ∧
    (∀ (name : String) (ets : List (Nat × Transaction)) (s : List Nat),
      Category.categorize (.leaf name []) ets s =
        (.leaf name 0 0 0 [], s)) := by
  refine ⟨?_, ?_, ?_⟩
  · intro cz ts hcz
    unfold Categorizer.categorize
    rw [hcz]
    refine ⟨rfl, ?_⟩
    show (((cz.survivors ts).enum.filter fun p =>
      !(List.contains ([] : List Nat) p.1)).map Prod.snd) = cz.survivors ts
    have : ((cz.survivors ts).enum.filter fun p =>
        !(List.contains ([] : List Nat) p.1)) = (cz.survivors ts).enum := by
      apply List.filter_eq_self.mpr
      intro p _
      rfl
    rw [this]
    exact List.enum_map_snd _
  · intro cz
    have hsurv : cz.survivors [] = [] := rfl
    unfold Categorizer.categorize
    rw [hsurv]
    simp only [List.enum_nil, categorizeList_empty_transactions,
      List.filter_nil, List.map_nil]
    constructor <;> trivial
  · intro name ets s
    simp [Category.categorize, leafCategorize_nil_matchers]

theorem categorize_edge_cases_witness :
    ((Categorizer.mk none [] : Categorizer).categories = []) ∧
    ((Categorizer.mk none [] : Categorizer).categorize
        [⟨3, "a", "d", 7⟩]).1 = [] ∧
    ((Categorizer.mk none [] : Categorizer).categorize
        [⟨3, "a", "d", 7⟩]).2 =
      (Categorizer.mk none [] : Categorizer).survivors [⟨3, "a", "d", 7⟩] := by
  refine ⟨rfl, ?_⟩
  exact (categorize_edge_cases.1 (Categorizer.mk none [])
    [⟨3, "a", "d", 7⟩] rfl)

theorem sortEquiv_sort_subcategories (sort : CategorySort) :
    ∀ c : Categorized, SortEquiv c (Categorized.sort_subcategories sort c) := by
  intro c
  induction c using Categorized.categorizedInduction with
  | hleaf n cnt tot abst txs =>
    simp only [Categorized.sort_subcategories]
    exact .leaf n cnt tot abst txs txs (List.Perm.refl txs)
  | hnode n cnt tot abst subs ih =>
    simp only [Categorized.sort_subcategories, sort_categorized]
    rw [List.attach_map_val]
    refine .node n cnt tot abst subs
      (subs.map (Categorized.sort_subcategories sort)) _ ?_ ?_
    · rw [List.forall₂_map_right_iff, List.forall₂_same]
      exact fun x hx => ih x hx
    · exact ((List.mergeSort_perm subs sort.le).map
        (Categorized.sort_subcategories sort)).symm

theorem sortEquiv_sort_transactions (sort : TransactionSort) :
    ∀ c : Categorized, SortEquiv c (Categorized.sort_transactions sort c) := by
  intro c
  induction c using Categorized.categorizedInduction with
  | hleaf n cnt tot abst txs =>
    simp only [Categorized.sort_transactions]
    exact .leaf n cnt tot abst txs _ (List.mergeSort_perm txs sort.le).symm
  | hnode n cnt tot abst subs ih =>
    simp only [Categorized.sort_transactions]
    rw [List.attach_map_val]
    refine .node n cnt tot abst subs
      (subs.map (Categorized.sort_transactions sort)) _ ?_ (List.Perm.refl _)
    rw [List.forall₂_map_right_iff, List.forall₂_same]
    exact fun x hx => ih x hx

/-- C5: both sort operations are pure reorderings: applying
`sort_subcategories` or `sort_transactions` to a result forest yields a
forest `SortEquiv`-equivalent to the original — every node keeps its
category name, `count`, `total` and `absolute_total`; sibling
subcategories are merely permuted and each leaf keeps the same multiset of
transactions, recursively through the whole tree. -/
theorem sort_pure_reordering (l : List Categorized) (cs : CategorySort)
    (ts : TransactionSort) :
    SortEquivForest l (sortSubcategoriesForest l cs) ∧
    SortEquivForest l (sortTransactionsForest l ts) := by
  constructor
  · refine ⟨l.map (Categorized.sort_subcategories cs), ?_, ?_⟩
    · rw [List.forall₂_map_right_iff, List.forall₂_same]
      exact fun x _ => sortEquiv_sort_subcategories cs x
    · show (l.map (Categorized.sort_subcategories cs)).Perm
        (sortSubcategoriesForest l cs)
      simp only [sortSubcategoriesForest, sort_categorized]
      rw [List.attach_map_val]
      exact ((List.mergeSort_perm l cs.le).map
        (Categorized.sort_subcategories cs)).symm
  · refine ⟨l.map (Categorized.sort_transactions ts), ?_, List.Perm.refl _⟩
    rw [List.forall₂_map_right_iff, List.forall₂_same]
    exact fun x _ => sortEquiv_sort_transactions ts x

theorem mem_setInsert (s : List String) (a x : String) :
    x ∈ setInsert s a ↔ x ∈ s ∨ x = a := by
  unfold setInsert
  by_cases h : s.contains a
  · rw [if_pos h]
    constructor
    · exact Or.inl
    · rintro (hx | rfl)
      · exact hx
      · exact List.elem_iff.mp h
  · rw [if_neg h]
    simp [List.mem_append]


theorem vec_to_hashsets_go_cons_seen (a : String) (rest u d : List String)
    (hu : u.contains a = true) :
    vec_to_hashsets_go (a :: rest) u d =
      vec_to_hashsets_go rest u (setInsert d a) := by
  simp only [vec_to_hashsets_go, hu, if_true]

theorem vec_to_hashsets_go_cons_new (a : String) (rest u d : List String)
    (hu : u.contains a = false) :
    vec_to_hashsets_go (a :: rest) u d =
      vec_to_hashsets_go rest (setInsert u a) d := by
  simp only [vec_to_hashsets_go, hu, Bool.false_eq_true, if_false]

theorem mem_vec_to_hashsets_go_unique :
    ∀ (l u d : List String) (x : String),
      (x ∈ (vec_to_hashsets_go l u d).1 ↔ x ∈ u ∨ x ∈ l) := by
  intro l
  induction l with
  | nil =>
    intro u d x
    simp [vec_to_hashsets_go]
  | cons a rest ih =>
    intro u d x
    by_cases hu : u.contains a = true
    · rw [vec_to_hashsets_go_cons_seen a rest u d hu, ih]
      have hau : a ∈ u := List.elem_iff.mp hu
      simp only [List.mem_cons]
      by_cases hxa : x = a
      · subst hxa
        tauto
      · tauto
    · have hu' : u.contains a = false := by
        revert hu
        cases u.contains a <;> simp
      rw [vec_to_hashsets_go_cons_new a rest u d hu', ih, mem_setInsert]
      simp only [List.mem_cons]
      tauto

theorem mem_vec_to_hashsets_go_dup :
    ∀ (l u d : List String) (x : String),
      (x ∈ (vec_to_hashsets_go l u d).2 ↔
        x ∈ d ∨ (x ∈ u ∧ x ∈ l) ∨ 2 ≤ l.count x) := by
  intro l
  induction l with
  | nil =>
    intro u d x
    simp [vec_to_hashsets_go]
  | cons a rest ih =>
    intro u d x
    have hmemcount : x ∈ rest ↔ 0 < rest.count x := List.count_pos_iff.symm
    by_cases hxa : x = a
    · subst hxa
      have hcnt : (x :: rest).count x = rest.count x + 1 := by
        rw [List.count_cons]
        simp
      by_cases hu : x ∈ u
      · have hu' : u.contains x = true := List.elem_iff.mpr hu
        rw [vec_to_hashsets_go_cons_seen x rest u d hu', ih, mem_setInsert,
          hcnt]
        constructor
        · intro _
          exact Or.inr (Or.inl ⟨hu, List.mem_cons_self x rest⟩)
        · intro _
          exact Or.inl (Or.inr rfl)
      · have hu' : u.contains x = false := by
          rw [← Bool.not_eq_true]
          exact fun h => hu (List.elem_iff.mp h)
        rw [vec_to_hashsets_go_cons_new x rest u d hu', ih, hcnt]
        have hxins : x ∈ setInsert u x := (mem_setInsert u x x).mpr (Or.inr rfl)
        constructor
        · rintro (h | h)
          · exact Or.inl h
          · rcases h with ⟨_, hr⟩ | h
            · have hpos := hmemcount.mp hr
              exact Or.inr (Or.inr (by omega))
            · exact Or.inr (Or.inr (by omega))
        · rintro (h | h)
          · exact Or.inl h
          · rcases h with ⟨hxu, _⟩ | h
            · exact absurd hxu hu
            · have hr : x ∈ rest := hmemcount.mpr (by omega)
              exact Or.inr (Or.inl ⟨hxins, hr⟩)
    · have hcnt : (a :: rest).count x = rest.count x := by
        rw [List.count_cons]
        have hf : (a == x) = false := by
          rw [beq_eq_false_iff_ne]
          exact fun h => hxa h.symm
        simp [hf]
      by_cases hu : u.contains a = true
      · rw [vec_to_hashsets_go_cons_seen a rest u d hu, ih, mem_setInsert,
          hcnt]
        constructor
        · rintro ((h | h) | h)
          · exact Or.inl h
          · exact absurd h hxa
          · rcases h with ⟨h1, h2⟩ | h
            · exact Or.inr (Or.inl ⟨h1, List.mem_cons_of_mem a h2⟩)
            · exact Or.inr (Or.inr h)
        · rintro (h | h)
          · exact Or.inl (Or.inl h)
          · rcases h with ⟨h1, h2⟩ | h
            · rcases List.mem_cons.mp h2 with h2' | h2'
              · exact absurd h2' hxa
              · exact Or.inr (Or.inl ⟨h1, h2'⟩)
            · exact Or.inr (Or.inr h)
      · have hu' : u.contains a = false := by
          revert hu
          cases u.contains a <;> simp
        rw [vec_to_hashsets_go_cons_new a rest u d hu', ih, hcnt,
          mem_setInsert]
        constructor
        · rintro (h | h)
          · exact Or.inl h
          · rcases h with ⟨h1 | h1, h2⟩ | h
            · exact Or.inr (Or.inl ⟨h1, List.mem_cons_of_mem a h2⟩)
            · exact absurd h1 hxa
            · exact Or.inr (Or.inr h)
        · rintro (h | h)
          · exact Or.inl h
          · rcases h with ⟨h1, h2⟩ | h
            · rcases List.mem_cons.mp h2 with h2' | h2'
              · exact absurd h2' hxa
              · exact Or.inr (Or.inl ⟨Or.inl h1, h2'⟩)
            · exact Or.inr (Or.inr h)

theorem mem_vec_to_hashsets_unique (l : List String) (x : String) :
    x ∈ (vec_to_hashsets l).1 ↔ x ∈ l := by
  unfold vec_to_hashsets
  rw [mem_vec_to_hashsets_go_unique]
  simp

theorem mem_vec_to_hashsets_dup (l : List String) (x : String) :
    x ∈ (vec_to_hashsets l).2 ↔ 2 ≤ l.count x := by
  unfold vec_to_hashsets
  rw [mem_vec_to_hashsets_go_dup]
  simp

theorem vec_to_hashsets_dup_isEmpty_false (l : List String)
    (h : ∃ x, 2 ≤ l.count x) : (vec_to_hashsets l).2.isEmpty = false := by
  obtain ⟨x, hx⟩ := h
  have hmem : x ∈ (vec_to_hashsets l).2 := (mem_vec_to_hashsets_dup l x).mpr hx
  rw [← Bool.not_eq_true, List.isEmpty_iff]
  intro hnil
  rw [hnil] at hmem
  exact absurd hmem (List.not_mem_nil x)

theorem vec_to_hashsets_dup_eq_nil (l : List String)
    (h : ∀ x, l.count x ≤ 1) : (vec_to_hashsets l).2 = [] := by
  rw [List.eq_nil_iff_forall_not_mem]
  intro x hx
  have := (mem_vec_to_hashsets_dup l x).mp hx
  have := h x
  omega

/-- C7: in the pre-hierarchy-fold design, loading a configuration fails —
producing no `Categorizer` — with `DuplicateCategoriesInTransactionMatchers`
holding exactly the names used by two or more matchers; with matcher names
unique, duplicate hierarchy names fail with
`DuplicateCategoriesInCategoryHierarchy` holding exactly the duplicated
hierarchy names; with both unique, matcher names absent from the hierarchy
fail with `MissingCategoriesInCategoryHierarchy` holding exactly those
names. -/
theorem validate_categories_errors :
    (∀ cz : old.Categorizer,
      (∃ x, 2 ≤ (cz.matchers.map old.TransactionMatcher.category).count x) →
      ∃ D, cz.from_parsed =
          .error (.duplicateCategoriesInTransactionMatchers D) ∧
        ∀ x, x ∈ D ↔
          2 ≤ (cz.matchers.map old.TransactionMatcher.category).count x) ∧
    (∀ cz : old.Categorizer,
      (∀ x, (cz.matchers.map old.TransactionMatcher.category).count x ≤ 1) →
      (∃ x, 2 ≤ (cz.hierarchy.flatMap old.Category.categories).count x) →
      ∃ D, cz.from_parsed =
          .error (.duplicateCategoriesInCategoryHierarchy D) ∧
        ∀ x, x ∈ D ↔
          2 ≤ (cz.hierarchy.flatMap old.Category.categories).count x) ∧
    (∀ cz : old.Categorizer,
      (∀ x, (cz.matchers.map old.TransactionMatcher.category).count x ≤ 1) →
      (∀ x, (cz.hierarchy.flatMap old.Category.categories).count x ≤ 1) →
      (∃ x, x ∈ cz.matchers.map old.TransactionMatcher.category ∧
        x ∉ cz.hierarchy.flatMap old.Category.categories) →
      ∃ D, cz.from_parsed =
          .error (.missingCategoriesInCategoryHierarchy D) ∧
        ∀ x, x ∈ D ↔
          (x ∈ cz.matchers.map old.TransactionMatcher.category ∧
            x ∉ cz.hierarchy.flatMap old.Category.categories)) := by
  refine ⟨?_, ?_, ?_⟩
  · intro cz hdup
    have hne := vec_to_hashsets_dup_isEmpty_false _ hdup
    have hval : cz.validate_categories =
        .error (.duplicateCategoriesInTransactionMatchers
          (vec_to_hashsets
            (cz.matchers.map old.TransactionMatcher.category)).2) := by
      unfold old.Categorizer.validate_categories
      simp only [hne, Bool.not_false, if_true]
    refine ⟨_, ?_, fun x => mem_vec_to_hashsets_dup _ x⟩
    unfold old.Categorizer.from_parsed
    rw [hval]
    rfl
  · intro cz hnodup hdup
    have hnil := vec_to_hashsets_dup_eq_nil _ hnodup
    have hne := vec_to_hashsets_dup_isEmpty_false _ hdup
    have hval : cz.validate_categories =
        .error (.duplicateCategoriesInCategoryHierarchy
          (vec_to_hashsets
            (cz.hierarchy.flatMap old.Category.categories)).2) := by
      unfold old.Categorizer.validate_categories
      simp only [hnil, List.isEmpty_nil, Bool.not_true, Bool.false_eq_true,
        if_false, hne, Bool.not_false, if_true]
    refine ⟨_, ?_, fun x => mem_vec_to_hashsets_dup _ x⟩
    unfold old.Categorizer.from_parsed
    rw [hval]
    rfl
  · intro cz hnodup1 hnodup2 hmiss
    have hnil1 := vec_to_hashsets_dup_eq_nil _ hnodup1
    have hnil2 := vec_to_hashsets_dup_eq_nil _ hnodup2
    have hmissmem : ∀ x,
        x ∈ ((vec_to_hashsets
            (cz.matchers.map old.TransactionMatcher.category)).1.filter
          fun c => !(vec_to_hashsets
            (cz.hierarchy.flatMap old.Category.categories)).1.contains c) ↔
        (x ∈ cz.matchers.map old.TransactionMatcher.category ∧
          x ∉ cz.hierarchy.flatMap old.Category.categories) := by
      intro x
      rw [List.mem_filter, mem_vec_to_hashsets_unique]
      constructor
      · rintro ⟨h1, h2⟩
        refine ⟨h1, fun hmem => ?_⟩
        rw [Bool.not_eq_eq_eq_not, Bool.not_true, ← Bool.not_eq_true] at h2
        exact h2 (List.elem_iff.mpr ((mem_vec_to_hashsets_unique _ x).mpr hmem))
      · rintro ⟨h1, h2⟩
        refine ⟨h1, ?_⟩
        rw [Bool.not_eq_eq_eq_not, Bool.not_true, ← Bool.not_eq_true]
        intro hc
        exact h2 ((mem_vec_to_hashsets_unique _ x).mp (List.elem_iff.mp hc))
    have hne : ((vec_to_hashsets
        (cz.matchers.map old.TransactionMatcher.category)).1.filter
      fun c => !(vec_to_hashsets
        (cz.hierarchy.flatMap old.Category.categories)).1.contains c).isEmpty
        = false := by
      obtain ⟨x, hx⟩ := hmiss
      rw [← Bool.not_eq_true, List.isEmpty_iff]
      intro hnil
      have := (hmissmem x).mpr hx
      rw [hnil] at this
      exact absurd this (List.not_mem_nil x)
    have hval : cz.validate_categories =
        .error (.missingCategoriesInCategoryHierarchy
          ((vec_to_hashsets
              (cz.matchers.map old.TransactionMatcher.category)).1.filter
            fun c => !(vec_to_hashsets
              (cz.hierarchy.flatMap old.Category.categories)).1.contains c)) := by
      unfold old.Categorizer.validate_categories
      simp only [hnil1, hnil2, List.isEmpty_nil, Bool.not_true,
        Bool.false_eq_true, if_false, hne, Bool.not_false, if_true]
    refine ⟨_, ?_, hmissmem⟩
    unfold old.Categorizer.from_parsed
    rw [hval]
    rfl

theorem validate_categories_errors_witness :
    ((∃ x, 2 ≤ ((old.Categorizer.mk
        [⟨"rent", none, none, none, [], none, none⟩,
          ⟨"rent", none, none, none, [], none, none⟩] []).matchers.map
            old.TransactionMatcher.category).count x) ∧
      ∃ D, (old.Categorizer.mk
          [⟨"rent", none, none, none, [], none, none⟩,
            ⟨"rent", none, none, none, [], none, none⟩] []).from_parsed =
        .error (.duplicateCategoriesInTransactionMatchers D) ∧
        ∀ x, x ∈ D ↔ 2 ≤ (((old.Categorizer.mk
          [⟨"rent", none, none, none, [], none, none⟩,
            ⟨"rent", none, none, none, [], none, none⟩] []).matchers.map
              old.TransactionMatcher.category).count x)) ∧
    (∃ D, (old.Categorizer.mk []
        [old.Category.mk "a" [], old.Category.mk "a" []]).from_parsed =
      .error (.duplicateCategoriesInCategoryHierarchy D) ∧
      ∀ x, x ∈ D ↔ 2 ≤ (((old.Categorizer.mk []
        [old.Category.mk "a" [], old.Category.mk "a" []]).hierarchy.flatMap
          old.Category.categories).count x)) ∧
    (∃ D, (old.Categorizer.mk [⟨"rent", none, none, none, [], none, none⟩]
        [old.Category.mk "home" []]).from_parsed =
      .error (.missingCategoriesInCategoryHierarchy D) ∧
      ∀ x, x ∈ D ↔
        (x ∈ ((old.Categorizer.mk
            [⟨"rent", none, none, none, [], none, none⟩]
            [old.Category.mk "home" []]).matchers.map
              old.TransactionMatcher.category) ∧
          x ∉ ((old.Categorizer.mk
            [⟨"rent", none, none, none, [], none, none⟩]
            [old.Category.mk "home" []]).hierarchy.flatMap
              old.Category.categories))) := by
  have hone : old.Category.categories (old.Category.mk "a" []) = ["a"] := by
    rw [old.Category.categories]
    simp
  have htwo : old.Category.categories (old.Category.mk "home" []) =
      ["home"] := by
    rw [old.Category.categories]
    simp
  refine ⟨⟨⟨"rent", by decide⟩, ?_⟩, ?_, ?_⟩
  · exact validate_categories_errors.1 _ ⟨"rent", by decide⟩
  · refine validate_categories_errors.2.1 _ (fun x => by simp) ?_
    refine ⟨"a", ?_⟩
    show 2 ≤ (([old.Category.mk "a" [], old.Category.mk "a" []]).flatMap
      old.Category.categories).count "a"
    rw [List.flatMap_cons, List.flatMap_cons, hone]
    simp [List.count_cons]
  · refine validate_categories_errors.2.2 _ ?_ ?_ ?_
    · intro x
      show (["rent"]).count x ≤ 1
      simpa using List.count_le_length x ["rent"]
    · intro x
      show (([old.Category.mk "home" []]).flatMap
        old.Category.categories).count x ≤ 1
      rw [List.flatMap_cons, htwo]
      simpa using List.count_le_length x
        (["home"] ++ ([] : List old.Category).flatMap old.Category.categories)
    · refine ⟨"rent", ?_, ?_⟩
      · show "rent" ∈ (["rent"] : List String)
        exact List.mem_singleton.mpr rfl
      · show "rent" ∉ (([old.Category.mk "home" []]).flatMap
          old.Category.categories)
        rw [List.flatMap_cons, htwo]
        simp

theorem firstMatchingLeaf_append_matched (l₁ l₂ : List (List TransactionMatcher))
    (t : Transaction) (h : anyLeafMatches l₁ t = true) :
    firstMatchingLeaf (l₁ ++ l₂) t = firstMatchingLeaf l₁ t := by
  induction l₁ with
  | nil => simp [anyLeafMatches] at h
  | cons ms rest ih =>
    by_cases hm : matchesLeaf ms t
    · simp [firstMatchingLeaf, hm]
    · have hrest : anyLeafMatches rest t = true := by
        simp only [anyLeafMatches, List.any_cons, Bool.or_eq_true] at h
        rcases h with h | h
        · exact absurd h hm
        · exact h
      simp [firstMatchingLeaf, hm, ih hrest]

theorem firstMatchingLeaf_append_unmatched
    (l₁ l₂ : List (List TransactionMatcher)) (t : Transaction)
    (h : anyLeafMatches l₁ t = false) :
    firstMatchingLeaf (l₁ ++ l₂) t =
      (firstMatchingLeaf l₂ t).map (· + l₁.length) := by
  induction l₁ with
  | nil =>
    cases hf : firstMatchingLeaf l₂ t <;> simp [hf]
  | cons ms rest ih =>
    have hm : matchesLeaf ms t = false := by
      simp only [anyLeafMatches, List.any_cons, Bool.or_eq_false_iff] at h
      exact h.1
    have hrest : anyLeafMatches rest t = false := by
      simp only [anyLeafMatches, List.any_cons, Bool.or_eq_false_iff] at h
      exact h.2
    rw [List.cons_append]
    simp only [firstMatchingLeaf, hm, Bool.false_eq_true, if_false]
    rw [ih hrest]
    cases hf : firstMatchingLeaf l₂ t <;>
      simp [List.length_cons, Nat.add_assoc]

theorem firstMatchingLeaf_lt_length (l : List (List TransactionMatcher))
    (t : Transaction) (k : Nat) (h : firstMatchingLeaf l t = some k) :
    k < l.length := by
  induction l generalizing k with
  | nil => simp [firstMatchingLeaf] at h
  | cons ms rest ih =>
    by_cases hm : matchesLeaf ms t
    · simp only [firstMatchingLeaf, hm, if_true, Option.some.injEq] at h
      subst h
      simp
    · simp only [firstMatchingLeaf, hm, Bool.false_eq_true, if_false,
        Option.map_eq_some'] at h
      obtain ⟨j, hj, rfl⟩ := h
      have := ih j hj
      simp only [List.length_cons]
      omega

theorem firstMatchingLeaf_eq_none_iff (l : List (List TransactionMatcher))
    (t : Transaction) :
    firstMatchingLeaf l t = none ↔ anyLeafMatches l t = false := by
  induction l with
  | nil => simp [firstMatchingLeaf, anyLeafMatches]
  | cons ms rest ih =>
    by_cases hm : matchesLeaf ms t <;>
      simp only [firstMatchingLeaf, anyLeafMatches, hm, List.any_cons,
        Bool.true_or, Bool.false_or, if_true, Bool.false_eq_true, if_false,
        Option.map_eq_none']
    · simp
    · rw [← anyLeafMatches]
      exact ih

theorem leafCategorize_categorized_contains (ms : List TransactionMatcher) :
    ∀ (ets : List (Nat × Transaction)) (s : List Nat) (j : Nat),
      (leafCategorize ms ets s).categorized.contains j =
        (s.contains j || ets.any fun p => p.1 == j && matchesLeaf ms p.2) := by
  intro ets
  induction ets with
  | nil =>
    intro s j
    simp [leafCategorize]
  | cons p rest ih =>
    obtain ⟨i, t⟩ := p
    intro s j
    by_cases hc : (!s.contains i && ms.any fun m => m.matches t) = true
    · obtain ⟨hs, hmt⟩ : s.contains i = false ∧
          (ms.any fun m => m.matches t) = true := by
        simpa using hc
      have heq : leafCategorize ms ((i, t) :: rest) s =
          ⟨(leafCategorize ms rest (i :: s)).count + 1,
            (leafCategorize ms rest (i :: s)).total + t.amount,
            (leafCategorize ms rest (i :: s)).absolute_total + |t.amount|,
            t :: (leafCategorize ms rest (i :: s)).transactions,
            (leafCategorize ms rest (i :: s)).categorized⟩ := by
        simp only [leafCategorize]
        rw [if_pos hc]
      rw [heq]
      show (leafCategorize ms rest (i :: s)).categorized.contains j = _
      rw [ih (i :: s) j, List.contains_cons]
      show ((j == i || s.contains j) || _) = _
      simp only [List.any_cons]
      show _ = (s.contains j ||
        ((i == j && matchesLeaf ms t) || rest.any fun p =>
          p.1 == j && matchesLeaf ms p.2))
      have hmt' : matchesLeaf ms t = true := hmt
      rw [hmt']
      by_cases hij : i = j
      · subst hij
        rw [hs]
        simp
      · have h1 : (j == i) = false := by
          rw [beq_eq_false_iff_ne]
          exact fun h => hij h.symm
        have h2 : (i == j) = false := by
          rw [beq_eq_false_iff_ne]
          exact hij
        rw [h1, h2]
        simp
    · have heq : leafCategorize ms ((i, t) :: rest) s =
          leafCategorize ms rest s := by
        simp only [leafCategorize]
        rw [if_neg hc]
      rw [heq, ih s j]
      simp only [List.any_cons]
      show _ = (s.contains j ||
        ((i == j && matchesLeaf ms t) || rest.any fun p =>
          p.1 == j && matchesLeaf ms p.2))
      rcases Bool.and_eq_false_iff.mp (Bool.eq_false_iff.mpr hc) with h | h
      · have hs : s.contains i = true := by
          revert h
          cases s.contains i <;> simp
        by_cases hij : i = j
        · subst hij
          rw [hs]
          simp
        · have h2 : (i == j) = false := by
            rw [beq_eq_false_iff_ne]
            exact hij
          rw [h2]
          simp
      · have hmt : matchesLeaf ms t = false := h
        rw [hmt]
        simp

theorem leafCategorize_transactions (ms : List TransactionMatcher) :
    ∀ (ets : List (Nat × Transaction)) (s : List Nat),
      (ets.map Prod.fst).Nodup →
      (leafCategorize ms ets s).transactions =
        (ets.filter fun p => !s.contains p.1 && matchesLeaf ms p.2).map
          Prod.snd := by
  intro ets
  induction ets with
  | nil =>
    intro s _
    simp [leafCategorize]
  | cons p rest ih =>
    obtain ⟨i, t⟩ := p
    intro s hnd
    rw [List.map_cons, List.nodup_cons] at hnd
    obtain ⟨hi, hnd⟩ := hnd
    by_cases hc : (!s.contains i && ms.any fun m => m.matches t) = true
    · have heq : leafCategorize ms ((i, t) :: rest) s =
          ⟨(leafCategorize ms rest (i :: s)).count + 1,
            (leafCategorize ms rest (i :: s)).total + t.amount,
            (leafCategorize ms rest (i :: s)).absolute_total + |t.amount|,
            t :: (leafCategorize ms rest (i :: s)).transactions,
            (leafCategorize ms rest (i :: s)).categorized⟩ := by
        simp only [leafCategorize]
        rw [if_pos hc]
      rw [heq]
      show t :: (leafCategorize ms rest (i :: s)).transactions = _
      rw [ih (i :: s) hnd]
      have hfc : (rest.filter fun p => !(i :: s).contains p.1 &&
          matchesLeaf ms p.2) = (rest.filter fun p => !s.contains p.1 &&
          matchesLeaf ms p.2) := by
        apply List.filter_congr
        intro q hq
        have hqi : (q.1 == i) = false := by
          rw [beq_eq_false_iff_ne]
          intro h
          apply hi
          have hmm := List.mem_map_of_mem Prod.fst hq
          rwa [h] at hmm
        rw [List.contains_cons, hqi, Bool.false_or]
      rw [hfc, List.filter_cons]
      have hcond : (!s.contains i && matchesLeaf ms t) = true := hc
      rw [if_pos hcond, List.map_cons]
    · have heq : leafCategorize ms ((i, t) :: rest) s =
          leafCategorize ms rest s := by
        simp only [leafCategorize]
        rw [if_neg hc]
      rw [heq, ih s hnd, List.filter_cons]
      have hcond : ¬((!s.contains i && matchesLeaf ms t) = true) := hc
      rw [if_neg hcond]

theorem any_fst_eq_of_nodup (ets : List (Nat × Transaction))
    (f : Transaction → Bool) (hnd : (ets.map Prod.fst).Nodup)
    (p : Nat × Transaction) (hp : p ∈ ets) :
    (ets.any fun q => q.1 == p.1 && f q.2) = f p.2 := by
  induction ets with
  | nil => exact absurd hp (List.not_mem_nil p)
  | cons q rest ih =>
    rw [List.map_cons, List.nodup_cons] at hnd
    obtain ⟨hq1, hnd⟩ := hnd
    rw [List.any_cons]
    rcases List.mem_cons.mp hp with rfl | hp'
    · rw [beq_self_eq_true, Bool.true_and]
      have hrest : (rest.any fun q' => q'.1 == p.1 && f q'.2) = false := by
        rw [List.any_eq_false]
        intro q' hq'
        have : (q'.1 == p.1) = false := by
          rw [beq_eq_false_iff_ne]
          intro h
          apply hq1
          have hmm := List.mem_map_of_mem Prod.fst hq'
          rwa [h] at hmm
        rw [this, Bool.false_and]
        simp
      rw [hrest, Bool.or_false]
    · have hhead : (q.1 == p.1) = false := by
        rw [beq_eq_false_iff_ne]
        intro h
        exact hq1 (h ▸ List.mem_map_of_mem Prod.fst hp')
      rw [hhead, Bool.false_and, Bool.false_or]
      exact ih hnd hp'

theorem any_or_split (ets : List (Nat × Transaction))
    (f g : Nat × Transaction → Bool) :
    (ets.any fun p => f p || g p) = (ets.any f || ets.any g) := by
  induction ets with
  | nil => rfl
  | cons p rest ih =>
    simp only [List.any_cons, ih]
    cases f p <;> cases g p <;> cases rest.any f <;> cases rest.any g <;> rfl

theorem specAssign_nil (ets : List (Nat × Transaction)) (s : List Nat) :
    specAssign [] ets s = [] := by
  simp [specAssign]

theorem specAssign_singleton (ms : List TransactionMatcher)
    (ets : List (Nat × Transaction)) (s : List Nat) :
    specAssign [ms] ets s =
      [(ets.filter fun p => !s.contains p.1 && matchesLeaf ms p.2).map
        Prod.snd] := by
  unfold specAssign
  rw [show ([ms] : List (List TransactionMatcher)).length = 1 from rfl,
    show List.range 1 = [0] from rfl, List.map_singleton]
  congr 1
  apply congrArg (List.map Prod.snd)
  apply List.filter_congr
  intro p _
  congr 1
  by_cases hm : matchesLeaf ms p.2 = true
  · rw [show firstMatchingLeaf [ms] p.2 = some 0 by
      simp [firstMatchingLeaf, hm]]
    rw [hm]
    rfl
  · have hm' : matchesLeaf ms p.2 = false := by
      revert hm
      cases matchesLeaf ms p.2 <;> simp
    rw [show firstMatchingLeaf [ms] p.2 = none by
      simp [firstMatchingLeaf, hm']]
    rw [hm']
    rfl

theorem specAssign_append (l₁ l₂ : List (List TransactionMatcher))
    (ets : List (Nat × Transaction)) (s s' : List Nat)
    (hs' : ∀ p ∈ ets, s'.contains p.1 =
      (s.contains p.1 || anyLeafMatches l₁ p.2)) :
    specAssign (l₁ ++ l₂) ets s =
      specAssign l₁ ets s ++ specAssign l₂ ets s' := by
  unfold specAssign
  rw [List.length_append, List.range_add, List.map_append, List.map_map]
  congr 1
  · apply List.map_congr_left
    intro k hk
    have hk' : k < l₁.length := List.mem_range.mp hk
    apply congrArg (List.map Prod.snd)
    apply List.filter_congr
    intro p _
    congr 1
    by_cases hm : anyLeafMatches l₁ p.2 = true
    · rw [firstMatchingLeaf_append_matched _ _ _ hm]
    · have hm' : anyLeafMatches l₁ p.2 = false := by
        revert hm
        cases anyLeafMatches l₁ p.2 <;> simp
      rw [firstMatchingLeaf_append_unmatched _ _ _ hm',
        (firstMatchingLeaf_eq_none_iff _ _).mpr hm']
      cases hf : firstMatchingLeaf l₂ p.2 with
      | none => rfl
      | some v =>
        show (some (v + l₁.length) == some k) = (none == some k)
        have hne : some (v + l₁.length) ≠ some k := by
          intro h
          rw [Option.some.injEq] at h
          omega
        rw [beq_eq_false_iff_ne.mpr hne]
        rfl
  · apply List.map_congr_left
    intro k _
    apply congrArg (List.map Prod.snd)
    apply List.filter_congr
    intro p hp
    show (!s.contains p.1 &&
        (firstMatchingLeaf (l₁ ++ l₂) p.2 == some (l₁.length + k))) =
      (!s'.contains p.1 && (firstMatchingLeaf l₂ p.2 == some k))
    rw [hs' p hp]
    by_cases hm : anyLeafMatches l₁ p.2 = true
    · rw [firstMatchingLeaf_append_matched _ _ _ hm, hm]
      have hsomething : ∃ j, firstMatchingLeaf l₁ p.2 = some j := by
        cases hf : firstMatchingLeaf l₁ p.2 with
        | none =>
          rw [firstMatchingLeaf_eq_none_iff] at hf
          rw [hf] at hm
          exact absurd hm (by simp)
        | some v => exact ⟨v, rfl⟩
      obtain ⟨j, hj⟩ := hsomething
      have hjlt := firstMatchingLeaf_lt_length _ _ _ hj
      rw [hj]
      have hne : some j ≠ some (l₁.length + k) := by
        intro h
        rw [Option.some.injEq] at h
        omega
      rw [beq_eq_false_iff_ne.mpr hne]
      simp
    · have hm' : anyLeafMatches l₁ p.2 = false := by
        revert hm
        cases anyLeafMatches l₁ p.2 <;> simp
      rw [firstMatchingLeaf_append_unmatched _ _ _ hm', hm', Bool.or_false]
      congr 1
      cases hf : firstMatchingLeaf l₂ p.2 with
      | none => rfl
      | some v =>
        show (some (v + l₁.length) == some (l₁.length + k)) =
          (some v == some k)
        by_cases hvk : v = k
        · subst hvk
          rw [beq_self_eq_true]
          have : v + l₁.length = l₁.length + v := Nat.add_comm v l₁.length
          rw [this, beq_self_eq_true]
        · have h1 : some (v + l₁.length) ≠ some (l₁.length + k) := by
            intro h
            rw [Option.some.injEq] at h
            omega
          have h2 : (some v : Option Nat) ≠ some k := by
            intro h
            rw [Option.some.injEq] at h
            exact hvk h
          rw [beq_eq_false_iff_ne.mpr h1, beq_eq_false_iff_ne.mpr h2]

theorem anyLeafMatches_singleton (ms : List TransactionMatcher)
    (t : Transaction) : anyLeafMatches [ms] t = matchesLeaf ms t := by
  simp [anyLeafMatches]

theorem anyLeafMatches_append (l₁ l₂ : List (List TransactionMatcher))
    (t : Transaction) :
    anyLeafMatches (l₁ ++ l₂) t =
      (anyLeafMatches l₁ t || anyLeafMatches l₂ t) := by
  simp [anyLeafMatches]

theorem leafMatchersList_cons (c : Category) (cs : List Category) :
    leafMatchersList (c :: cs) = c.leafMatchers ++ leafMatchersList cs := by
  simp [leafMatchersList]

theorem leafListsForest_cons (r : Categorized) (rs : List Categorized) :
    leafListsForest (r :: rs) = r.leafLists ++ leafListsForest rs := by
  simp [leafListsForest]

theorem leafLists_node (n : String) (cnt : Nat) (tot abst : Rat)
    (subs : List Categorized) :
    Categorized.leafLists (.node n cnt tot abst subs) =
      leafListsForest subs := by
  rw [Categorized.leafLists, attach_flatMap]
  rfl

theorem leafMatchers_node (n : String) (subs : List Category) :
    Category.leafMatchers (.node n subs) = leafMatchersList subs := by
  rw [Category.leafMatchers, attach_flatMap]
  rfl

theorem catCharQ_of_forall (cs : List Category) (H : ∀ c ∈ cs, CatCharP c) :
    CatCharQ cs := by
  induction cs with
  | nil =>
    intro ets s _
    constructor
    · rfl
    · intro j
      have hz : (ets.any fun p =>
          p.1 == j && anyLeafMatches (leafMatchersList []) p.2) = false := by
        rw [List.any_eq_false]
        intro p _
        simp [leafMatchersList, anyLeafMatches]
      show s.contains j = _
      rw [hz, Bool.or_false]
  | cons c rest ih =>
    intro ets s hnd
    have hc := H c (List.mem_cons_self c rest) ets s hnd
    have hrest := ih (fun x hx => H x (List.mem_cons_of_mem c hx)) ets
      (Category.categorize c ets s).2 hnd
    have hpt : ∀ p ∈ ets, (Category.categorize c ets s).2.contains p.1 =
        (s.contains p.1 || anyLeafMatches c.leafMatchers p.2) := by
      intro p hp
      rw [hc.2 p.1, any_fst_eq_of_nodup ets _ hnd p hp]
    have hunfold : (categorizeList (c :: rest) ets s).subcategorized =
        (Category.categorize c ets s).1 ::
          (categorizeList rest ets
            (Category.categorize c ets s).2).subcategorized := by
      simp [categorizeList]
    have hunfold2 : (categorizeList (c :: rest) ets s).categorized =
        (categorizeList rest ets
          (Category.categorize c ets s).2).categorized := by
      simp [categorizeList]
    constructor
    · rw [hunfold, leafListsForest_cons, leafMatchersList_cons,
        specAssign_append c.leafMatchers (leafMatchersList rest) ets s
          (Category.categorize c ets s).2 hpt,
        hc.1, hrest.1]
    · intro j
      rw [hunfold2, hrest.2 j, hc.2 j]
      have hcomb : ∀ p : Nat × Transaction,
          (p.1 == j && anyLeafMatches (leafMatchersList (c :: rest)) p.2) =
          ((p.1 == j && anyLeafMatches c.leafMatchers p.2) ||
            (p.1 == j && anyLeafMatches (leafMatchersList rest) p.2)) := by
        intro p
        rw [leafMatchersList_cons, anyLeafMatches_append]
        cases p.1 == j <;> cases anyLeafMatches c.leafMatchers p.2 <;>
          cases anyLeafMatches (leafMatchersList rest) p.2 <;> rfl
      rw [Bool.or_assoc, ← any_or_split]
      simp only [← hcomb]

theorem catCharP_all : ∀ c : Category, CatCharP c := by
  intro c
  induction c using Category.categoryInduction with
  | hleaf n ms =>
    intro ets s hnd
    constructor
    · show (Category.categorize (.leaf n ms) ets s).1.leafLists =
        specAssign (Category.leafMatchers (.leaf n ms)) ets s
      have h1 : (Category.categorize (.leaf n ms) ets s).1 =
          .leaf n (leafCategorize ms ets s).count
            (leafCategorize ms ets s).total
            (leafCategorize ms ets s).absolute_total
            (leafCategorize ms ets s).transactions := by
        simp [Category.categorize]
      rw [h1, Categorized.leafLists, Category.leafMatchers,
        specAssign_singleton, leafCategorize_transactions ms ets s hnd]
    · intro j
      show (Category.categorize (.leaf n ms) ets s).2.contains j = _
      have h2 : (Category.categorize (.leaf n ms) ets s).2 =
          (leafCategorize ms ets s).categorized := by
        simp [Category.categorize]
      rw [h2, leafCategorize_categorized_contains, Category.leafMatchers]
      have hpt : ∀ p : Nat × Transaction,
          (p.1 == j && matchesLeaf ms p.2) =
          (p.1 == j && anyLeafMatches [ms] p.2) := by
        intro p
        rw [anyLeafMatches_singleton]
      simp only [hpt]
  | hnode n subs ih =>
    intro ets s hnd
    have hq := catCharQ_of_forall subs ih ets s hnd
    have h1 : (Category.categorize (.node n subs) ets s).1 =
        .node n (categorizeList subs ets s).count
          (categorizeList subs ets s).total
          (categorizeList subs ets s).absolute_total
          (categorizeList subs ets s).subcategorized := by
      simp [Category.categorize]
    have h2 : (Category.categorize (.node n subs) ets s).2 =
        (categorizeList subs ets s).categorized := by
      simp [Category.categorize]
    constructor
    · show (Category.categorize (.node n subs) ets s).1.leafLists =
        specAssign (Category.leafMatchers (.node n subs)) ets s
      rw [h1, leafLists_node, leafMatchers_node, hq.1]
    · intro j
      show (Category.categorize (.node n subs) ets s).2.contains j = _
      rw [h2, hq.2 j, leafMatchers_node]

theorem enumFrom_filter_snd (g : Transaction → Bool) :
    ∀ (l : List Transaction) (n : Nat),
      ((List.enumFrom n l).filter fun p => g p.2).map Prod.snd =
        l.filter g := by
  intro l
  induction l with
  | nil => intro n; rfl
  | cons t rest ih =>
    intro n
    rw [List.enumFrom_cons, List.filter_cons, List.filter_cons]
    by_cases hg : g t = true
    · rw [if_pos hg, if_pos hg, List.map_cons, ih]
    · rw [if_neg hg, if_neg hg, ih]

theorem enum_fst_nodup (l : List Transaction) :
    (l.enum.map Prod.fst).Nodup := by
  rw [List.enum_map_fst]
  exact List.nodup_range l.length

theorem categorize_characterization (cz : Categorizer)
    (ts : List Transaction) :
    leafListsForest (cz.categorize ts).1 =
      (List.range (leafMatchersList cz.categories).length).map (fun k =>
        (cz.survivors ts).filter fun t =>
          firstMatchingLeaf (leafMatchersList cz.categories) t == some k) ∧
    (cz.categorize ts).2 = ((cz.survivors ts).filter fun t =>
      !anyLeafMatches (leafMatchersList cz.categories) t) := by
  have hnd := enum_fst_nodup (cz.survivors ts)
  have hq := catCharQ_of_forall cz.categories (fun c _ => catCharP_all c)
    (cz.survivors ts).enum [] hnd
  have h1 : (cz.categorize ts).1 =
      (categorizeList cz.categories (cz.survivors ts).enum
        []).subcategorized := rfl
  have h2 : (cz.categorize ts).2 =
      ((cz.survivors ts).enum.filter fun p =>
        !(categorizeList cz.categories (cz.survivors ts).enum
          []).categorized.contains p.1).map Prod.snd := rfl
  constructor
  · rw [h1, hq.1]
    unfold specAssign
    apply List.map_congr_left
    intro k _
    have hcong : ((cz.survivors ts).enum.filter fun p =>
        !(List.contains ([] : List Nat) p.1) &&
          (firstMatchingLeaf (leafMatchersList cz.categories) p.2
            == some k)) =
        ((cz.survivors ts).enum.filter fun p =>
          firstMatchingLeaf (leafMatchersList cz.categories) p.2
            == some k) := by
      apply List.filter_congr
      intro p _
      rfl
    rw [hcong, List.enum_eq_enumFrom]
    exact enumFrom_filter_snd
      (fun t => firstMatchingLeaf (leafMatchersList cz.categories) t
        == some k) (cz.survivors ts) 0
  · rw [h2]
    have hcong : ((cz.survivors ts).enum.filter fun p =>
        !(categorizeList cz.categories (cz.survivors ts).enum
          []).categorized.contains p.1) =
        ((cz.survivors ts).enum.filter fun p =>
          !anyLeafMatches (leafMatchersList cz.categories) p.2) := by
      apply List.filter_congr
      intro p hp
      rw [hq.2 p.1, any_fst_eq_of_nodup _ _ hnd p hp]
      rfl
    rw [hcong, List.enum_eq_enumFrom]
    exact enumFrom_filter_snd
      (fun t => !anyLeafMatches (leafMatchersList cz.categories) t)
      (cz.survivors ts) 0

/-- C2: the output of `Categorizer::categorize` assigns each surviving
transaction to exactly the first leaf, in depth-first forest order
(top-level categories in listed order), having at least one matcher that
matches it: the leaf transaction lists, in depth-first order, are exactly
the survivors whose first matching leaf is that leaf's position (hence each
transaction is claimed by at most one leaf), and the uncategorized list is
exactly the survivors with no matching leaf, which therefore appear in no
leaf's list. -/
theorem categorize_first_matching_leaf (cz : Categorizer)
    (ts : List Transaction) :
    leafListsForest (cz.categorize ts).1 =
      (List.range (leafMatchersList cz.categories).length).map (fun k =>
        (cz.survivors ts).filter fun t =>
          firstMatchingLeaf (leafMatchersList cz.categories) t == some k) ∧
    (cz.categorize ts).2 = ((cz.survivors ts).filter fun t =>
      firstMatchingLeaf (leafMatchersList cz.categories) t == none) := by
  obtain ⟨h1, h2⟩ := categorize_characterization cz ts
  refine ⟨h1, ?_⟩
  rw [h2]
  apply List.filter_congr
  intro t _
  by_cases hm : anyLeafMatches (leafMatchersList cz.categories) t = true
  · rw [hm]
    cases hf : firstMatchingLeaf (leafMatchersList cz.categories) t with
    | none =>
      rw [firstMatchingLeaf_eq_none_iff] at hf
      rw [hf] at hm
      exact absurd hm (by simp)
    | some v => rfl
  · have hm' : anyLeafMatches (leafMatchersList cz.categories) t = false := by
      revert hm
      cases anyLeafMatches (leafMatchersList cz.categories) t <;> simp
    rw [hm', (firstMatchingLeaf_eq_none_iff _ _).mpr hm']
    rfl

/-- C6: with no `transaction_filters`, every transaction survives
pre-filtering; with filters present, a transaction survives iff it matches
at least one filter; and a transaction matching no filter appears neither
in the uncategorized list nor in any leaf's transaction list of the
result. -/
theorem prefilter_semantics :
    (∀ (cz : Categorizer) (ts : List Transaction),
      cz.transaction_filters = none → cz.survivors ts = ts) ∧
    (∀ (cz : Categorizer) (ts : List Transaction)
      (fs : List TransactionMatcher) (t : Transaction),
      cz.transaction_filters = some fs →
      (t ∈ cz.survivors ts ↔ t ∈ ts ∧ ∃ f ∈ fs, f.matches t = true)) ∧
    (∀ (cz : Categorizer) (ts : List Transaction)
      (fs : List TransactionMatcher) (t : Transaction),
      cz.transaction_filters = some fs →
      (∀ f ∈ fs, f.matches t = false) →
      (t ∉ (cz.categorize ts).2 ∧
        ∀ L ∈ leafListsForest (cz.categorize ts).1, t ∉ L)) := by
  have hsurv : ∀ (cz : Categorizer) (ts : List Transaction)
      (fs : List TransactionMatcher) (t : Transaction),
      cz.transaction_filters = some fs →
      (∀ f ∈ fs, f.matches t = false) → t ∉ cz.survivors ts := by
    intro cz ts fs t hf hnone hmem
    rw [Categorizer.survivors, List.mem_filter, hf] at hmem
    have := hmem.2
    rw [Option.map_some', Option.getD_some, List.any_eq_true] at this
    obtain ⟨f, hfs, hft⟩ := this
    rw [hnone f hfs] at hft
    exact absurd hft (by simp)
  refine ⟨?_, ?_, ?_⟩
  · intro cz ts h
    rw [Categorizer.survivors, List.filter_eq_self]
    intro t _
    rw [h]
    rfl
  · intro cz ts fs t h
    rw [Categorizer.survivors, List.mem_filter, h, Option.map_some',
      Option.getD_some, List.any_eq_true]
  · intro cz ts fs t hf hnone
    have hts := hsurv cz ts fs t hf hnone
    obtain ⟨h1, h2⟩ := categorize_characterization cz ts
    constructor
    · intro hmem
      rw [h2, List.mem_filter] at hmem
      exact hts hmem.1
    · intro L hL htL
      rw [h1] at hL
      rw [List.mem_map] at hL
      obtain ⟨k, _, hLk⟩ := hL
      rw [← hLk, List.mem_filter] at htL
      exact hts htL.1

theorem prefilter_semantics_witness :
    ((Categorizer.mk none []).transaction_filters = none ∧
      (Categorizer.mk none []).survivors [⟨1, "y", "d", 0⟩] =
        [⟨1, "y", "d", 0⟩]) ∧
    ((Categorizer.mk (some [⟨none, none, some "x", [], none, none⟩])
        []).transaction_filters =
          some [⟨none, none, some "x", [], none, none⟩] ∧
      (∀ f ∈ [(⟨none, none, some "x", [], none, none⟩ :
          TransactionMatcher)], f.matches ⟨1, "y", "d", 0⟩ = false) ∧
      ((⟨1, "y", "d", 0⟩ : Transaction) ∈
          (Categorizer.mk (some [⟨none, none, some "x", [], none, none⟩])
            []).survivors [⟨1, "y", "d", 0⟩] ↔
        (⟨1, "y", "d", 0⟩ : Transaction) ∈
            ([⟨1, "y", "d", 0⟩] : List Transaction) ∧
          ∃ f ∈ [(⟨none, none, some "x", [], none, none⟩ :
            TransactionMatcher)],
            f.matches ⟨1, "y", "d", 0⟩ = true) ∧
      ((⟨1, "y", "d", 0⟩ : Transaction) ∉
          ((Categorizer.mk (some [⟨none, none, some "x", [], none, none⟩])
            []).categorize [⟨1, "y", "d", 0⟩]).2 ∧
        ∀ L ∈ leafListsForest
            ((Categorizer.mk (some [⟨none, none, some "x", [], none, none⟩])
              []).categorize [⟨1, "y", "d", 0⟩]).1,
          (⟨1, "y", "d", 0⟩ : Transaction) ∉ L)) := by
  refine ⟨⟨rfl, prefilter_semantics.1 _ _ rfl⟩, rfl, ?_, ?_, ?_⟩
  · intro f hf
    rw [List.mem_singleton] at hf
    subst hf
    rfl
  · exact prefilter_semantics.2.1 _ [⟨1, "y", "d", 0⟩] _ _ rfl
  · refine prefilter_semantics.2.2 _ [⟨1, "y", "d", 0⟩] _ _ rfl ?_
    intro f hf
    rw [List.mem_singleton] at hf
    subst hf
    rfl
